import Mathlib

set_option linter.unusedSectionVars false
set_option linter.unusedVariables false

/-!
Verification of the `MiniLRUCache` core (MiniLRUCache.ts, NodeManager.ts):
a bounded LRU cache over a hash index (`Map<K, Node>`) and an intrusive
doubly-linked recency list, with node pooling and optional TTL expiry.

Embedding: node objects live in an `arena` (a list of `Option NodeData`
indexed by node id; `none` is a node whose fields were cleared by
`NodePool.release`).  The `Map<K, Node>` becomes the association list
`index : List (K × Nat)` from keys to node ids; the doubly-linked list
becomes `order : List Nat`, the node ids from `head` to `tail`, so the
`prev`/`next` pointers are represented by adjacency in `order`.  The pool's
backing array becomes `pool : List Nat` (a LIFO free list of cleared ids).
JS numbers used as counters, capacities and timestamps become `Int`; the
float result of `hitRate` becomes `Rat`.  State mutation becomes explicit
state passing: each method returns the updated cache (paired with its
return value where the method returns one).
-/

namespace MiniLRU

/-- Data fields of `Node<K, V>` (NodeManager.ts): `key`, `value`,
`createdAt` (timestamp of last write).  The `prev`/`next` pointers are
represented by the position of the node's id in `Cache.order`. -/
structure NodeData (K V : Type) where
  key : K
  value : V
  createdAt : Int
deriving DecidableEq, Repr

/-- State of a `MiniLRUCache<K, V>` instance.  `arena` holds every node
object ever allocated, by id; a `none` slot is a node whose fields were
cleared by `NodePool.release`.  `index` is the `Map<K, Node>` (key to node
id, insertion order), `order` is the doubly-linked list from `head` to
`tail`, `pool` is the `NodePool`'s free list (most recently released id
first). -/
structure Cache (K V : Type) where
  max : Int
  ttl : Int
  arena : List (Option (NodeData K V))
  index : List (K × Nat)
  order : List Nat
  pool : List Nat
  size : Int
  hits : Int
  misses : Int
deriving DecidableEq

variable {K V : Type} [DecidableEq K]

/-- Embeds `this.map.get(key)`: look the key up in the index, returning the node's
id. -/
def lookupId (k : K) : List (K × Nat) → Option Nat
  | [] => none
  | p :: rest => if p.1 = k then some p.2 else lookupId k rest

/-- Embeds `this.map.delete(key)`: drop the (unique) entry for the key from the
index. -/
def deleteKey (k : K) : List (K × Nat) → List (K × Nat)
  | [] => []
  | p :: rest => if p.1 = k then rest else p :: deleteKey k rest

/-- Dereference a node id: the node's data when the arena slot holds a live
(non-cleared) node. -/
def aget (c : Cache K V) (i : Nat) : Option (NodeData K V) :=
  match c.arena[i]? with
  | some (some nd) => some nd
  | _ => none

/-- Embeds `NodePool.acquire(key, value, createdAt)`: reuse the most recently
released node (resetting its fields) or allocate a fresh one at the end of
the arena.  Returns the node's id with the updated arena and pool. -/
def acquire (arena : List (Option (NodeData K V))) (pool : List Nat)
    (k : K) (v : V) (createdAt : Int) :
    Nat × List (Option (NodeData K V)) × List Nat :=
  match pool with
  | i :: rest => (i, arena.set i (some ⟨k, v, createdAt⟩), rest)
  | [] => (arena.length, arena ++ [some ⟨k, v, createdAt⟩], [])

/-- Embeds `this.removeInternal(node)`: detach the node from the list
(`removeNode`), delete its key from the index, release it to the pool
(clearing its fields), and decrement `size`.  `nd` is the node's current
data, as read by the caller. -/
def removeInternal (c : Cache K V) (i : Nat) (nd : NodeData K V) : Cache K V :=
  { c with
    order := c.order.erase i
    index := deleteKey nd.key c.index
    arena := c.arena.set i none
    pool := i :: c.pool
    size := c.size - 1 }

/-- Embeds `this.moveToFront(node)`: no-op when the node is already the head;
otherwise splice it out of the list and relink it at the head. -/
def moveToFront (order : List Nat) (i : Nat) : List Nat :=
  if order.head? = some i then order else i :: order.erase i

/-- Embeds `this.evictLRU()`: remove the tail node, if the list is nonempty. -/
def evictLRU (c : Cache K V) : Cache K V :=
  match c.order.getLast? with
  | none => c
  | some i =>
    match aget c i with
    | some nd => removeInternal c i nd
    | none => c

/-- Embeds `get(key, now)`: miss (counted) when the key is absent; expiry removal
plus a counted miss when TTL is enabled and `now - createdAt > ttl`;
otherwise a counted hit that promotes the node to the head and returns its
value. -/
def get (c : Cache K V) (k : K) (now : Int) : Option V × Cache K V :=
  match lookupId k c.index with
  | none => (none, { c with misses := c.misses + 1 })
  | some i =>
    match aget c i with
    | none => (none, { c with misses := c.misses + 1 })
    | some nd =>
      if 0 < c.ttl ∧ c.ttl < now - nd.createdAt then
        (none, { removeInternal c i nd with misses := c.misses + 1 })
      else
        (some nd.value, { c with hits := c.hits + 1, order := moveToFront c.order i })

/-- Absent-key branch of `set` before the capacity check: acquire a node
from the pool, add it to the index (`map.set`) and the front of the list
(`addToFront`), and increment `size`. -/
def insertNew (c : Cache K V) (k : K) (v : V) (now : Int) : Cache K V :=
  let a := acquire c.arena c.pool k v now
  { c with
    arena := a.2.1
    pool := a.2.2
    index := c.index ++ [(k, a.1)]
    order := a.1 :: c.order
    size := c.size + 1 }

/-- Embeds `set(key, value, now)`: overwrite value and `createdAt` in place and
promote when the key is present; otherwise acquire a node, insert it at the
index and the head of the list, increment `size`, and evict the tail when
`size > max`. -/
def set (c : Cache K V) (k : K) (v : V) (now : Int) : Cache K V :=
  match lookupId k c.index with
  | some i =>
    match aget c i with
    | some nd =>
      { c with
        arena := c.arena.set i (some { nd with value := v, createdAt := now })
        order := moveToFront c.order i }
    | none => c
  | none =>
    let c' := insertNew c k v now
    if c.max < c'.size then evictLRU c' else c'

/-- Embeds `remove(key)`: remove the node when the key is present; otherwise do
nothing. -/
def remove (c : Cache K V) (k : K) : Cache K V :=
  match lookupId k c.index with
  | none => c
  | some i =>
    match aget c i with
    | some nd => removeInternal c i nd
    | none => c

/-- Embeds `has(key, now)`: the same expiry check as `get`, but without touching
the counters or the recency order; its only state change is removing the
node when it is expired. -/
def has (c : Cache K V) (k : K) (now : Int) : Bool × Cache K V :=
  match lookupId k c.index with
  | none => (false, c)
  | some i =>
    match aget c i with
    | none => (false, c)
    | some nd =>
      if 0 < c.ttl ∧ c.ttl < now - nd.createdAt then
        (false, removeInternal c i nd)
      else
        (true, c)

/-- Release every node reachable from the index (in `map.values()` order),
clearing each arena slot. -/
def clearIds : List (Option (NodeData K V)) → List Nat → List (Option (NodeData K V))
  | arena, [] => arena
  | arena, i :: rest => clearIds (arena.set i none) rest

/-- Embeds `clear()`: release every resident node, empty the index, reset the list
pointers and all counters, and clear the pool's free list. -/
def clear (c : Cache K V) : Cache K V :=
  { c with
    arena := clearIds c.arena (c.index.map Prod.snd)
    index := []
    order := []
    pool := []
    size := 0
    hits := 0
    misses := 0 }

/-- Embeds `hitRate`: `hits / (hits + misses)`, and `0` when no lookup has been
counted yet (the source guards `total === 0` before dividing). -/
def hitRate (c : Cache K V) : Rat :=
  if c.hits + c.misses = 0 then 0 else (c.hits : Rat) / ((c.hits : Rat) + (c.misses : Rat))

/-- Loop body of `sweepExpired`: walk the ids from the tail toward the head
(the argument list is `order.reverse`), removing each expired node and
stopping at the first node that is not expired. -/
def sweepLoop (ttl now : Int) : Cache K V → List Nat → Cache K V
  | c, [] => c
  | c, i :: rest =>
    match aget c i with
    | none => c
    | some nd =>
      if ttl < now - nd.createdAt then sweepLoop ttl now (removeInternal c i nd) rest
      else c

/-- Embeds `sweepExpired(now)`: no-op when TTL is disabled; otherwise walk from the
tail toward the head removing expired nodes, stopping at the first
non-expired node. -/
def sweepExpired (c : Cache K V) (now : Int) : Cache K V :=
  if c.ttl ≤ 0 then c else sweepLoop c.ttl now c c.order.reverse

/-- Embeds the constructor `new MiniLRUCache(max, options)`: a fresh cache; the constructor body
only stores `max` and `ttl` (defaulted to `0`) and optionally starts the
background sweep worker, which is a timer in another execution context and
is not modelled here. -/
def mkCache (max ttl : Int) : Cache K V :=
  ⟨max, ttl, [], [], [], [], 0, 0, 0⟩

/-- Construction as a fallible step: `none` would represent a construction
error thrown to the caller.  The source constructor contains no validation
and no throw path, so this always succeeds. -/
def construct (max ttl : Int) : Option (Cache K V) :=
  some (mkCache max ttl)

/-- One public cache operation, for reasoning about operation sequences. -/
inductive Op (K V : Type) where
  | get (k : K) (now : Int)
  | set (k : K) (v : V) (now : Int)
  | remove (k : K)
  | has (k : K) (now : Int)
  | sweepExpired (now : Int)
  | clear
deriving DecidableEq

/-- State effect of one public operation. -/
def applyOp (c : Cache K V) : Op K V → Cache K V
  | .get k now => (get c k now).2
  | .set k v now => set c k v now
  | .remove k => remove c k
  | .has k now => (has c k now).2
  | .sweepExpired now => sweepExpired c now
  | .clear => clear c

/-- Run a sequence of public operations from a given state. -/
def run (c : Cache K V) (ops : List (Op K V)) : Cache K V :=
  ops.foldl applyOp c

/-- Key of the node at the head of the recency list (the most recently
used entry), when the list is nonempty. -/
def headKey (c : Cache K V) : Option K :=
  c.order.head?.bind fun i => (aget c i).map (·.key)

/-- Key of the node at the tail of the recency list (the least recently
used entry), when the list is nonempty. -/
def tailKey (c : Cache K V) : Option K :=
  c.order.getLast?.bind fun i => (aget c i).map (·.key)

/-- Whether the node with id `i` is live and TTL-expired at time `now`. -/
def expiredB (c : Cache K V) (now : Int) (i : Nat) : Bool :=
  match aget c i with
  | some nd => decide (c.ttl < now - nd.createdAt)
  | none => false

/-- Whether some resident (listed) entry is live and TTL-expired at `now`. -/
def hasExpiredResident (c : Cache K V) (now : Int) : Bool :=
  c.order.any fun i => expiredB c now i

/-- Structural well-formedness of a cache state: the recency list has no
duplicate ids, the index's keys are distinct, the index's ids enumerate
exactly the listed ids, every indexed entry points at a live node carrying
that key, pooled ids are cleared and distinct, all tracked ids are inside
the arena, and `size` counts the listed nodes. -/
structure Wf (c : Cache K V) : Prop where
  order_nodup : c.order.Nodup
  keys_nodup : (c.index.map Prod.fst).Nodup
  ids_perm : (c.index.map Prod.snd).Perm c.order
  key_match : ∀ p ∈ c.index, ∃ nd, c.arena[p.2]? = some (some nd) ∧ nd.key = p.1
  pool_cleared : ∀ i ∈ c.pool, c.arena[i]? = some none
  pool_nodup : c.pool.Nodup
  order_lt : ∀ i ∈ c.order, i < c.arena.length
  pool_lt : ∀ i ∈ c.pool, i < c.arena.length
  size_eq : c.size = (c.order.length : Int)

/-! ### Basic lemmas about the index operations -/

theorem lookupId_mem {k : K} {i : Nat} {l : List (K × Nat)}
    (h : lookupId k l = some i) : (k, i) ∈ l := by
  induction l with
  | nil => simp [lookupId] at h
  | cons p rest ih =>
    obtain ⟨p1, p2⟩ := p
    simp only [lookupId] at h
    by_cases hk : p1 = k
    · rw [if_pos hk] at h
      injection h with h2
      subst h2
      subst hk
      exact List.mem_cons_self _ _
    · rw [if_neg hk] at h
      exact List.mem_cons_of_mem _ (ih h)

theorem lookupId_eq_none_iff {k : K} {l : List (K × Nat)} :
    lookupId k l = none ↔ ∀ p ∈ l, p.1 ≠ k := by
  induction l with
  | nil => simp [lookupId]
  | cons p rest ih =>
    by_cases hk : p.1 = k
    · simp [lookupId, hk]
    · simp [lookupId, hk, ih]

theorem lookupId_append {k : K} {l₁ l₂ : List (K × Nat)} :
    lookupId k (l₁ ++ l₂) =
      match lookupId k l₁ with
      | some i => some i
      | none => lookupId k l₂ := by
  induction l₁ with
  | nil => simp [lookupId]
  | cons p rest ih =>
    by_cases hk : p.1 = k
    · simp [lookupId, hk]
    · simpa [lookupId, hk] using ih

theorem deleteKey_sublist (k : K) (l : List (K × Nat)) :
    List.Sublist (deleteKey k l) l := by
  induction l with
  | nil => simp [deleteKey]
  | cons p rest ih =>
    by_cases hk : p.1 = k
    · rw [deleteKey, if_pos hk]
      exact List.sublist_cons_self p rest
    · rw [deleteKey, if_neg hk]
      exact ih.cons₂ p

theorem mem_of_mem_deleteKey {k : K} {p : K × Nat} {l : List (K × Nat)}
    (h : p ∈ deleteKey k l) : p ∈ l :=
  (deleteKey_sublist k l).mem h

theorem lookupId_deleteKey_ne {k k' : K} {l : List (K × Nat)} (hne : k' ≠ k) :
    lookupId k' (deleteKey k l) = lookupId k' l := by
  induction l with
  | nil => simp [deleteKey]
  | cons p rest ih =>
    by_cases hk : p.1 = k
    · simp [deleteKey, lookupId, hk, hne.symm]
    · simp [deleteKey, lookupId, hk, ih]

theorem lookupId_deleteKey_self {k : K} {l : List (K × Nat)}
    (h : (l.map Prod.fst).Nodup) : lookupId k (deleteKey k l) = none := by
  induction l with
  | nil => simp [deleteKey, lookupId]
  | cons p rest ih =>
    simp only [List.map_cons, List.nodup_cons] at h
    by_cases hk : p.1 = k
    · simp only [deleteKey, hk, if_pos]
      rw [lookupId_eq_none_iff]
      intro q hq hqk
      exact h.1 (hk ▸ hqk ▸ List.mem_map_of_mem Prod.fst hq)
    · simp [deleteKey, lookupId, hk, ih h.2]

theorem map_snd_perm_deleteKey {k : K} {i : Nat} {l : List (K × Nat)}
    (hnd : (l.map Prod.fst).Nodup) (hmem : (k, i) ∈ l) :
    (l.map Prod.snd).Perm (i :: (deleteKey k l).map Prod.snd) := by
  induction l with
  | nil => simp at hmem
  | cons p rest ih =>
    simp only [List.map_cons, List.nodup_cons] at hnd
    rcases List.mem_cons.mp hmem with heq | hmem'
    · rw [← heq]
      simp [deleteKey]
    · have hk : p.1 ≠ k := by
        intro hk
        exact hnd.1 (hk ▸ (by simpa using List.mem_map_of_mem Prod.fst hmem'))
      simp only [deleteKey, hk, if_neg, not_false_iff, List.map_cons]
      exact ((ih hnd.2 hmem').cons p.2).trans (List.Perm.swap _ _ _)

/-- Erasing the last element of a duplicate-free list drops the last
element. -/
theorem erase_getLast? {l : List Nat} {a : Nat} (h : l.Nodup)
    (hl : l.getLast? = some a) : l.erase a = l.dropLast := by
  rcases l.eq_nil_or_concat with rfl | ⟨ys, y, rfl⟩
  · simp at hl
  · rw [List.concat_eq_append] at *
    rw [List.getLast?_concat] at hl
    have hay : a = y := by simp only [Option.some.injEq] at hl; omega
    subst hay
    have hy : a ∉ ys := by
      rw [List.nodup_append] at h
      intro hmem
      exact h.2.2 hmem (List.mem_singleton_self _)
    rw [List.erase_append_right _ hy, List.erase_cons_head, List.append_nil,
      List.dropLast_concat]

/-! ### Lemmas about node dereferencing and the recency list -/

theorem aget_eq_some {c : Cache K V} {i : Nat} {nd : NodeData K V}
    (h : aget c i = some nd) : c.arena[i]? = some (some nd) := by
  unfold aget at h
  split at h
  · next heq => injection h with h2; rw [← h2]; exact heq
  · cases h

theorem aget_of_arena {c : Cache K V} {i : Nat} {nd : NodeData K V}
    (h : c.arena[i]? = some (some nd)) : aget c i = some nd := by
  unfold aget
  split
  · next heq => rw [h] at heq; injection heq with h2; injection h2 with h3; rw [h3]
  · next hne => exact absurd rfl (by rw [h] at hne; exact fun heq => hne _ heq)

theorem moveToFront_perm {order : List Nat} {i : Nat} (hi : i ∈ order) :
    (moveToFront order i).Perm order := by
  unfold moveToFront
  split
  · exact List.Perm.refl _
  · exact (List.perm_cons_erase hi).symm

theorem moveToFront_head (order : List Nat) (i : Nat) :
    (moveToFront order i).head? = some i := by
  unfold moveToFront
  split
  · next h => exact h
  · rfl

/-- Every listed id is a live node carried by some index entry. -/
theorem Wf.live {c : Cache K V} (hwf : Wf c) {i : Nat} (hi : i ∈ c.order) :
    ∃ nd, c.arena[i]? = some (some nd) ∧ (nd.key, i) ∈ c.index := by
  have hmem : i ∈ c.index.map Prod.snd := hwf.ids_perm.mem_iff.mpr hi
  obtain ⟨p, hp, hpi⟩ := List.mem_map.mp hmem
  obtain ⟨nd, hnd, hk⟩ := hwf.key_match p hp
  refine ⟨nd, hpi ▸ hnd, ?_⟩
  have : (nd.key, i) = p := by
    obtain ⟨p1, p2⟩ := p
    simp only [Prod.mk.injEq]
    exact ⟨hk, hpi.symm⟩
  rw [this]
  exact hp

/-- The index's ids are distinct. -/
theorem Wf.ids_nodup {c : Cache K V} (hwf : Wf c) :
    (c.index.map Prod.snd).Nodup :=
  hwf.ids_perm.symm.nodup hwf.order_nodup

/-- A pooled id is never listed. -/
theorem Wf.not_mem_pool {c : Cache K V} (hwf : Wf c) {i : Nat}
    (hi : i ∈ c.order) : i ∉ c.pool := by
  intro hp
  obtain ⟨nd, hnd, -⟩ := hwf.live hi
  rw [hwf.pool_cleared i hp] at hnd
  cases hnd

/-! ### Well-formedness is preserved by every operation -/

theorem wf_of_eq {c c' : Cache K V} (hwf : Wf c) (ho : c'.order = c.order)
    (hi : c'.index = c.index) (ha : c'.arena = c.arena)
    (hp : c'.pool = c.pool) (hs : c'.size = c.size) : Wf c' := by
  refine ⟨?_, ?_, ?_, ?_, ?_, ?_, ?_, ?_, ?_⟩ <;>
    simp only [ho, hi, ha, hp, hs]
  exacts [hwf.order_nodup, hwf.keys_nodup, hwf.ids_perm, hwf.key_match,
    hwf.pool_cleared, hwf.pool_nodup, hwf.order_lt, hwf.pool_lt, hwf.size_eq]

theorem wf_removeInternal {c : Cache K V} {i : Nat} {nd : NodeData K V}
    (hwf : Wf c) (hmem : (nd.key, i) ∈ c.index)
    (hag : c.arena[i]? = some (some nd)) : Wf (removeInternal c i nd) := by
  have hi : i ∈ c.order :=
    hwf.ids_perm.mem_iff.mp (by simpa using List.mem_map_of_mem Prod.snd hmem)
  have hilen : i < c.arena.length := hwf.order_lt i hi
  have hperm₁ : (c.index.map Prod.snd).Perm
      (i :: (deleteKey nd.key c.index).map Prod.snd) :=
    map_snd_perm_deleteKey hwf.keys_nodup hmem
  have hnotdel : i ∉ (deleteKey nd.key c.index).map Prod.snd := by
    have : (i :: (deleteKey nd.key c.index).map Prod.snd).Nodup :=
      hperm₁.nodup hwf.ids_nodup
    exact (List.nodup_cons.mp this).1
  have hipool : i ∉ c.pool := hwf.not_mem_pool hi
  refine ⟨?_, ?_, ?_, ?_, ?_, ?_, ?_, ?_, ?_⟩
  · exact hwf.order_nodup.erase i
  · exact hwf.keys_nodup.sublist ((deleteKey_sublist _ _).map Prod.fst)
  · exact (hperm₁.symm.trans (hwf.ids_perm.trans (List.perm_cons_erase hi))).cons_inv
  · intro p hp
    obtain ⟨nd₀, h₀, hk₀⟩ := hwf.key_match p (mem_of_mem_deleteKey hp)
    have hpi : p.2 ≠ i := fun h =>
      hnotdel (h ▸ List.mem_map_of_mem Prod.snd hp)
    refine ⟨nd₀, ?_, hk₀⟩
    show (c.arena.set i none)[p.2]? = some (some nd₀)
    rw [List.getElem?_set_ne (fun h => hpi h.symm)]
    exact h₀
  · intro j hj
    rcases List.mem_cons.mp hj with rfl | hj'
    · show (c.arena.set j none)[j]? = some none
      rw [List.getElem?_set_self hilen]
    · have hji : j ≠ i := by
        intro h
        have h2 : some (some nd) = (some none : Option (Option (NodeData K V))) :=
          hag.symm.trans (h ▸ hwf.pool_cleared j hj')
        simp at h2
      show (c.arena.set i none)[j]? = some none
      rw [List.getElem?_set_ne (fun h => hji h.symm)]
      exact hwf.pool_cleared j hj'
  · exact List.nodup_cons.mpr ⟨hipool, hwf.pool_nodup⟩
  · intro j hj
    show j < (c.arena.set i none).length
    rw [List.length_set]
    exact hwf.order_lt j (List.mem_of_mem_erase hj)
  · intro j hj
    show j < (c.arena.set i none).length
    rw [List.length_set]
    rcases List.mem_cons.mp hj with rfl | hj'
    · exact hilen
    · exact hwf.pool_lt j hj'
  · show c.size - 1 = ((c.order.erase i).length : Int)
    rw [List.length_erase_of_mem hi]
    have hpos : 0 < c.order.length := List.length_pos.mpr (List.ne_nil_of_mem hi)
    have := hwf.size_eq
    omega

theorem wf_promote {c c' : Cache K V} (hwf : Wf c) {i : Nat} (hi : i ∈ c.order)
    (ho : c'.order = moveToFront c.order i) (hidx : c'.index = c.index)
    (ha : c'.arena = c.arena) (hp : c'.pool = c.pool) (hs : c'.size = c.size) :
    Wf c' := by
  have hperm := moveToFront_perm hi
  refine ⟨?_, ?_, ?_, ?_, ?_, ?_, ?_, ?_, ?_⟩ <;>
    simp only [ho, hidx, ha, hp, hs]
  · exact hperm.symm.nodup hwf.order_nodup
  · exact hwf.keys_nodup
  · exact hwf.ids_perm.trans hperm.symm
  · exact hwf.key_match
  · exact hwf.pool_cleared
  · exact hwf.pool_nodup
  · intro j hj
    exact hwf.order_lt j (hperm.mem_iff.mp hj)
  · exact hwf.pool_lt
  · rw [hperm.length_eq]
    exact hwf.size_eq

/-- The node found in the arena through an index entry is determined: two
reads of the same slot agree, so the indexed key is the node's key. -/
theorem Wf.key_of_lookup {c : Cache K V} (hwf : Wf c) {k : K} {i : Nat}
    {nd : NodeData K V} (hl : lookupId k c.index = some i)
    (hag : aget c i = some nd) : nd.key = k ∧ (nd.key, i) ∈ c.index := by
  have hmem : (k, i) ∈ c.index := lookupId_mem hl
  have hagA := aget_eq_some hag
  obtain ⟨nd₀, h₀, hk₀⟩ := hwf.key_match _ hmem
  have hnd : nd₀ = nd := by
    rw [h₀] at hagA
    injection hagA with h2
    injection h2
  have hkey : nd.key = k := hnd ▸ hk₀
  exact ⟨hkey, by rw [hkey]; exact hmem⟩

theorem wf_get {c : Cache K V} (hwf : Wf c) (k : K) (now : Int) :
    Wf (get c k now).2 := by
  unfold get
  split
  · exact wf_of_eq hwf rfl rfl rfl rfl rfl
  next i hl =>
    split
    · exact wf_of_eq hwf rfl rfl rfl rfl rfl
    next nd hag =>
      obtain ⟨hkey, hmem'⟩ := hwf.key_of_lookup hl hag
      have hi : i ∈ c.order :=
        hwf.ids_perm.mem_iff.mp (by simpa using List.mem_map_of_mem Prod.snd hmem')
      split
      · exact wf_of_eq (wf_removeInternal hwf hmem' (aget_eq_some hag)) rfl rfl rfl rfl rfl
      · exact wf_promote hwf hi rfl rfl rfl rfl rfl

theorem wf_insertNew {c : Cache K V} (hwf : Wf c) {k : K} (v : V) (now : Int)
    (hl : lookupId k c.index = none) : Wf (insertNew c k v now) := by
  have hknot : ∀ p ∈ c.index, p.1 ≠ k := lookupId_eq_none_iff.mp hl
  unfold insertNew
  cases hp : c.pool with
  | cons i rest =>
    simp only [acquire]
    have hiP : i ∈ c.pool := hp ▸ List.mem_cons_self i rest
    have hicl : c.arena[i]? = some none := hwf.pool_cleared i hiP
    have hilen : i < c.arena.length := hwf.pool_lt i hiP
    have hiord : i ∉ c.order := fun h => (hwf.not_mem_pool h) hiP
    have hpnd := hp ▸ hwf.pool_nodup
    refine ⟨?_, ?_, ?_, ?_, ?_, ?_, ?_, ?_, ?_⟩
    · exact List.nodup_cons.mpr ⟨hiord, hwf.order_nodup⟩
    · show ((c.index ++ [(k, i)]).map Prod.fst).Nodup
      rw [List.map_append]
      refine hwf.keys_nodup.append (List.nodup_singleton k) ?_
      intro a ha hb
      rw [List.map_singleton, List.mem_singleton] at hb
      obtain ⟨p, hpmem, hpa⟩ := List.mem_map.mp ha
      exact hknot p hpmem (hpa.trans hb)
    · show ((c.index ++ [(k, i)]).map Prod.snd).Perm (i :: c.order)
      rw [List.map_append, List.map_singleton]
      exact (List.perm_append_singleton _ _).trans (hwf.ids_perm.cons i)
    · intro p hpm
      rcases List.mem_append.mp hpm with hold | hnew
      · obtain ⟨nd₀, h₀, hk₀⟩ := hwf.key_match p hold
        have hio : p.2 ∈ c.order :=
          hwf.ids_perm.mem_iff.mp (List.mem_map_of_mem Prod.snd hold)
        have hpi : p.2 ≠ i := fun h => hiord (h ▸ hio)
        refine ⟨nd₀, ?_, hk₀⟩
        show (c.arena.set i _)[p.2]? = some (some nd₀)
        rw [List.getElem?_set_ne (fun h => hpi h.symm)]
        exact h₀
      · rw [List.mem_singleton] at hnew
        subst hnew
        refine ⟨⟨k, v, now⟩, ?_, rfl⟩
        show (c.arena.set i _)[i]? = _
        rw [List.getElem?_set_self hilen]
    · intro j hj
      have hji : j ≠ i := fun h => (List.nodup_cons.mp hpnd).1 (h ▸ hj)
      show (c.arena.set i _)[j]? = some none
      rw [List.getElem?_set_ne (fun h => hji h.symm)]
      exact hwf.pool_cleared j (hp ▸ List.mem_cons_of_mem i hj)
    · exact (List.nodup_cons.mp hpnd).2
    · intro j hj
      show j < (c.arena.set i _).length
      rw [List.length_set]
      rcases List.mem_cons.mp hj with rfl | hj'
      · exact hilen
      · exact hwf.order_lt j hj'
    · intro j hj
      show j < (c.arena.set i _).length
      rw [List.length_set]
      exact hwf.pool_lt j (hp ▸ List.mem_cons_of_mem i hj)
    · show c.size + 1 = ((i :: c.order).length : Int)
      have := hwf.size_eq
      simp only [List.length_cons]
      omega
  | nil =>
    simp only [acquire]
    have hlord : c.arena.length ∉ c.order := fun h =>
      absurd (hwf.order_lt _ h) (lt_irrefl _)
    refine ⟨?_, ?_, ?_, ?_, ?_, ?_, ?_, ?_, ?_⟩
    · exact List.nodup_cons.mpr ⟨hlord, hwf.order_nodup⟩
    · show ((c.index ++ [(k, c.arena.length)]).map Prod.fst).Nodup
      rw [List.map_append]
      refine hwf.keys_nodup.append (List.nodup_singleton k) ?_
      intro a ha hb
      rw [List.map_singleton, List.mem_singleton] at hb
      obtain ⟨p, hpmem, hpa⟩ := List.mem_map.mp ha
      exact hknot p hpmem (hpa.trans hb)
    · show ((c.index ++ [(k, c.arena.length)]).map Prod.snd).Perm
        (c.arena.length :: c.order)
      rw [List.map_append, List.map_singleton]
      exact (List.perm_append_singleton _ _).trans (hwf.ids_perm.cons _)
    · intro p hpm
      rcases List.mem_append.mp hpm with hold | hnew
      · obtain ⟨nd₀, h₀, hk₀⟩ := hwf.key_match p hold
        have hio : p.2 ∈ c.order :=
          hwf.ids_perm.mem_iff.mp (List.mem_map_of_mem Prod.snd hold)
        refine ⟨nd₀, ?_, hk₀⟩
        show (c.arena ++ [some ⟨k, v, now⟩])[p.2]? = some (some nd₀)
        rw [List.getElem?_append, if_pos (hwf.order_lt _ hio)]
        exact h₀
      · rw [List.mem_singleton] at hnew
        subst hnew
        refine ⟨⟨k, v, now⟩, ?_, rfl⟩
        show (c.arena ++ [some ⟨k, v, now⟩])[c.arena.length]? = _
        rw [List.getElem?_concat_length]
    · intro j hj
      simp at hj
    · exact List.nodup_nil
    · intro j hj
      show j < (c.arena ++ [some (⟨k, v, now⟩ : NodeData K V)]).length
      rw [List.length_append, List.length_singleton]
      rcases List.mem_cons.mp hj with rfl | hj'
      · omega
      · have := hwf.order_lt j hj'
        omega
    · intro j hj
      simp at hj
    · show c.size + 1 = ((c.arena.length :: c.order).length : Int)
      have := hwf.size_eq
      simp only [List.length_cons]
      omega

theorem wf_evictLRU {c : Cache K V} (hwf : Wf c) : Wf (evictLRU c) := by
  unfold evictLRU
  split
  · exact hwf
  next i hlast =>
    split
    next nd hag =>
      have hi : i ∈ c.order := List.mem_of_mem_getLast? hlast
      obtain ⟨nd₀, h₀, hmem₀⟩ := hwf.live hi
      have hagA := aget_eq_some hag
      have hnd : nd₀ = nd := by
        rw [h₀] at hagA
        injection hagA with h2
        injection h2
      exact wf_removeInternal hwf (hnd ▸ hmem₀) (aget_eq_some hag)
    next => exact hwf

theorem wf_set {c : Cache K V} (hwf : Wf c) (k : K) (v : V) (now : Int) :
    Wf (set c k v now) := by
  unfold set
  split
  next i hl =>
    split
    next nd hag =>
      obtain ⟨hkey, hmem'⟩ := hwf.key_of_lookup hl hag
      have hi : i ∈ c.order :=
        hwf.ids_perm.mem_iff.mp (by simpa using List.mem_map_of_mem Prod.snd hmem')
      have hilen : i < c.arena.length := hwf.order_lt i hi
      have hagA := aget_eq_some hag
      have hperm := moveToFront_perm hi
      refine ⟨?_, ?_, ?_, ?_, ?_, ?_, ?_, ?_, ?_⟩
      · exact hperm.symm.nodup hwf.order_nodup
      · exact hwf.keys_nodup
      · exact hwf.ids_perm.trans hperm.symm
      · intro p hpm
        obtain ⟨nd₀, h₀, hk₀⟩ := hwf.key_match p hpm
        by_cases hpi : p.2 = i
        · refine ⟨{ nd with value := v, createdAt := now }, ?_, ?_⟩
          · show (c.arena.set i _)[p.2]? = _
            rw [hpi, List.getElem?_set_self hilen]
          · show nd.key = p.1
            have : nd₀ = nd := by
              rw [hpi] at h₀
              rw [h₀] at hagA
              injection hagA with h2
              injection h2
            rw [← this]
            exact hk₀
        · refine ⟨nd₀, ?_, hk₀⟩
          show (c.arena.set i _)[p.2]? = some (some nd₀)
          rw [List.getElem?_set_ne (fun h => hpi h.symm)]
          exact h₀
      · intro j hj
        have hji : j ≠ i := fun h => (hwf.not_mem_pool hi) (h ▸ hj)
        show (c.arena.set i _)[j]? = some none
        rw [List.getElem?_set_ne (fun h => hji h.symm)]
        exact hwf.pool_cleared j hj
      · exact hwf.pool_nodup
      · intro j hj
        show j < (c.arena.set i _).length
        rw [List.length_set]
        exact hwf.order_lt j (hperm.mem_iff.mp hj)
      · intro j hj
        show j < (c.arena.set i _).length
        rw [List.length_set]
        exact hwf.pool_lt j hj
      · show c.size = ((moveToFront c.order i).length : Int)
        rw [hperm.length_eq]
        exact hwf.size_eq
    next hag => exact hwf
  next hl =>
    show Wf (if c.max < (insertNew c k v now).size then evictLRU (insertNew c k v now)
      else insertNew c k v now)
    have hins := wf_insertNew hwf v now hl
    split
    · exact wf_evictLRU hins
    · exact hins

theorem wf_remove {c : Cache K V} (hwf : Wf c) (k : K) : Wf (remove c k) := by
  unfold remove
  split
  · exact hwf
  next i hl =>
    split
    next nd hag =>
      obtain ⟨hkey, hmem'⟩ := hwf.key_of_lookup hl hag
      exact wf_removeInternal hwf hmem' (aget_eq_some hag)
    next => exact hwf

theorem wf_has {c : Cache K V} (hwf : Wf c) (k : K) (now : Int) :
    Wf (has c k now).2 := by
  unfold has
  split
  · exact hwf
  next i hl =>
    split
    · exact hwf
    next nd hag =>
      obtain ⟨hkey, hmem'⟩ := hwf.key_of_lookup hl hag
      split
      · exact wf_removeInternal hwf hmem' (aget_eq_some hag)
      · exact hwf

theorem wf_clear (c : Cache K V) : Wf (clear c) := by
  refine ⟨?_, ?_, ?_, ?_, ?_, ?_, ?_, ?_, ?_⟩ <;> simp [clear]

theorem wf_mkCache (max ttl : Int) : Wf (mkCache max ttl : Cache K V) := by
  refine ⟨?_, ?_, ?_, ?_, ?_, ?_, ?_, ?_, ?_⟩ <;> simp [mkCache]

theorem wf_sweepLoop {ttl now : Int} (l : List Nat) :
    ∀ c : Cache K V, Wf c → l.Nodup → (∀ i ∈ l, i ∈ c.order) →
      Wf (sweepLoop ttl now c l) := by
  induction l with
  | nil =>
    intro c hwf _ _
    exact hwf
  | cons i rest ih =>
    intro c hwf hnd hsub
    unfold sweepLoop
    split
    · exact hwf
    next nd hag =>
      split
      · have hi : i ∈ c.order := hsub i (List.mem_cons_self i rest)
        obtain ⟨nd₀, h₀, hmem₀⟩ := hwf.live hi
        have hagA := aget_eq_some hag
        have hnd₀ : nd₀ = nd := by
          rw [h₀] at hagA
          injection hagA with h2
          injection h2
        refine ih _ (wf_removeInternal hwf (hnd₀ ▸ hmem₀) (aget_eq_some hag))
          (List.nodup_cons.mp hnd).2 ?_
        intro j hj
        have hji : j ≠ i := fun h => (List.nodup_cons.mp hnd).1 (h ▸ hj)
        show j ∈ c.order.erase i
        exact (hwf.order_nodup.mem_erase_iff).mpr
          ⟨hji, hsub j (List.mem_cons_of_mem i hj)⟩
      · exact hwf

theorem wf_sweepExpired {c : Cache K V} (hwf : Wf c) (now : Int) :
    Wf (sweepExpired c now) := by
  unfold sweepExpired
  split
  · exact hwf
  · exact wf_sweepLoop _ c hwf (List.nodup_reverse.mpr hwf.order_nodup)
      (fun i hi => List.mem_reverse.mp hi)

theorem wf_applyOp {c : Cache K V} (hwf : Wf c) (op : Op K V) :
    Wf (applyOp c op) := by
  cases op with
  | get k now => exact wf_get hwf k now
  | set k v now => exact wf_set hwf k v now
  | remove k => exact wf_remove hwf k
  | has k now => exact wf_has hwf k now
  | sweepExpired now => exact wf_sweepExpired hwf now
  | clear => exact wf_clear c

theorem wf_run {c : Cache K V} (hwf : Wf c) (ops : List (Op K V)) :
    Wf (run c ops) := by
  induction ops generalizing c with
  | nil => exact hwf
  | cons op rest ih => exact ih (wf_applyOp hwf op)

/-! ### Equation lemmas for the branches of each operation -/

theorem getLast?_cons_of_ne_nil {l : List Nat} (a : Nat) (h : l ≠ []) :
    (a :: l).getLast? = l.getLast? := by
  cases l with
  | nil => exact absurd rfl h
  | cons y ys => exact List.getLast?_cons_cons

theorem lookupId_concat_ne {k k' : K} {i : Nat} {l : List (K × Nat)}
    (hne : k' ≠ k) : lookupId k' (l ++ [(k, i)]) = lookupId k' l := by
  rw [lookupId_append]
  cases h : lookupId k' l with
  | some j => rfl
  | none => simp [lookupId, Ne.symm hne]

theorem lookupId_concat_self {k : K} {i : Nat} {l : List (K × Nat)}
    (hl : lookupId k l = none) : lookupId k (l ++ [(k, i)]) = some i := by
  rw [lookupId_append, hl]
  simp [lookupId]

theorem aget_congr {c c' : Cache K V} {j : Nat}
    (h : c'.arena[j]? = c.arena[j]?) : aget c' j = aget c j := by
  unfold aget
  rw [h]

theorem get_of_absent {c : Cache K V} {k : K} (now : Int)
    (hl : lookupId k c.index = none) :
    get c k now = (none, { c with misses := c.misses + 1 }) := by
  unfold get
  rw [hl]

theorem get_of_live {c : Cache K V} {k : K} {i : Nat} {nd : NodeData K V}
    (now : Int) (hl : lookupId k c.index = some i) (hag : aget c i = some nd) :
    get c k now =
      if 0 < c.ttl ∧ c.ttl < now - nd.createdAt then
        (none, { removeInternal c i nd with misses := c.misses + 1 })
      else
        (some nd.value,
          { c with hits := c.hits + 1, order := moveToFront c.order i }) := by
  unfold get
  rw [hl]
  show (match aget c i with
    | none => _
    | some nd => _) = _
  rw [hag]

theorem set_of_live {c : Cache K V} {k : K} {i : Nat} {nd : NodeData K V}
    (v : V) (now : Int) (hl : lookupId k c.index = some i)
    (hag : aget c i = some nd) :
    set c k v now =
      { c with
        arena := c.arena.set i (some { nd with value := v, createdAt := now })
        order := moveToFront c.order i } := by
  unfold set
  rw [hl]
  show (match aget c i with
    | some nd => _
    | none => c) = _
  rw [hag]

theorem set_of_dead {c : Cache K V} {k : K} {i : Nat} (v : V) (now : Int)
    (hl : lookupId k c.index = some i) (hag : aget c i = none) :
    set c k v now = c := by
  unfold set
  rw [hl]
  show (match aget c i with
    | some nd => _
    | none => c) = c
  rw [hag]

theorem set_of_absent {c : Cache K V} {k : K} (v : V) (now : Int)
    (hl : lookupId k c.index = none) :
    set c k v now =
      if c.max < (insertNew c k v now).size then evictLRU (insertNew c k v now)
      else insertNew c k v now := by
  unfold set
  rw [hl]

theorem remove_of_absent {c : Cache K V} {k : K}
    (hl : lookupId k c.index = none) : remove c k = c := by
  unfold remove
  rw [hl]

theorem remove_of_live {c : Cache K V} {k : K} {i : Nat} {nd : NodeData K V}
    (hl : lookupId k c.index = some i) (hag : aget c i = some nd) :
    remove c k = removeInternal c i nd := by
  unfold remove
  rw [hl]
  show (match aget c i with
    | some nd => removeInternal c i nd
    | none => c) = _
  rw [hag]

theorem has_of_absent {c : Cache K V} {k : K} (now : Int)
    (hl : lookupId k c.index = none) : has c k now = (false, c) := by
  unfold has
  rw [hl]

theorem has_of_live {c : Cache K V} {k : K} {i : Nat} {nd : NodeData K V}
    (now : Int) (hl : lookupId k c.index = some i) (hag : aget c i = some nd) :
    has c k now =
      if 0 < c.ttl ∧ c.ttl < now - nd.createdAt then
        (false, removeInternal c i nd)
      else (true, c) := by
  unfold has
  rw [hl]
  show (match aget c i with
    | none => _
    | some nd => _) = _
  rw [hag]

theorem evictLRU_eq {c : Cache K V} {t : Nat} {nd : NodeData K V}
    (hlast : c.order.getLast? = some t) (hag : aget c t = some nd) :
    evictLRU c = removeInternal c t nd := by
  unfold evictLRU
  rw [hlast]
  show (match aget c t with
    | some nd => removeInternal c t nd
    | none => c) = _
  rw [hag]

/-- A key present in the index always dereferences to a live node. -/
theorem Wf.aget_of_lookup {c : Cache K V} (hwf : Wf c) {k : K} {i : Nat}
    (hl : lookupId k c.index = some i) : ∃ nd, aget c i = some nd ∧ nd.key = k := by
  obtain ⟨nd₀, h₀, hk₀⟩ := hwf.key_match _ (lookupId_mem hl)
  exact ⟨nd₀, aget_of_arena h₀, hk₀⟩

/-- Characterization of the absent-key insertion step: a fresh id is placed
at the head of the list and appended to the index, carrying exactly the
written key, value and timestamp; all previously listed nodes are
untouched. -/
theorem insertNew_spec {c : Cache K V} (hwf : Wf c) (k : K) (v : V) (now : Int) :
    ∃ i, i ∉ c.order ∧
      (insertNew c k v now).order = i :: c.order ∧
      (insertNew c k v now).index = c.index ++ [(k, i)] ∧
      (insertNew c k v now).size = c.size + 1 ∧
      aget (insertNew c k v now) i = some ⟨k, v, now⟩ ∧
      (∀ j ∈ c.order, aget (insertNew c k v now) j = aget c j) := by
  unfold insertNew
  cases hp : c.pool with
  | cons i rest =>
    simp only [acquire]
    have hiP : i ∈ c.pool := hp ▸ List.mem_cons_self i rest
    have hilen : i < c.arena.length := hwf.pool_lt i hiP
    have hiord : i ∉ c.order := fun h => (hwf.not_mem_pool h) hiP
    refine ⟨i, hiord, ?_, ?_, ?_, ?_, ?_⟩
    · trivial
    · trivial
    · trivial
    · apply aget_of_arena
      show (c.arena.set i _)[i]? = _
      rw [List.getElem?_set_self hilen]
    · intro j hj
      have hji : j ≠ i := fun h => hiord (h ▸ hj)
      apply aget_congr
      show (c.arena.set i _)[j]? = c.arena[j]?
      rw [List.getElem?_set_ne (fun h => hji h.symm)]
  | nil =>
    simp only [acquire]
    have hlord : c.arena.length ∉ c.order := fun h =>
      absurd (hwf.order_lt _ h) (lt_irrefl _)
    refine ⟨c.arena.length, hlord, ?_, ?_, ?_, ?_, ?_⟩
    · trivial
    · trivial
    · trivial
    · apply aget_of_arena
      show (c.arena ++ [some (⟨k, v, now⟩ : NodeData K V)])[c.arena.length]? = _
      rw [List.getElem?_concat_length]
    · intro j hj
      apply aget_congr
      show (c.arena ++ [some (⟨k, v, now⟩ : NodeData K V)])[j]? = c.arena[j]?
      rw [List.getElem?_append, if_pos (hwf.order_lt _ hj)]

/-! ### Configuration and size bookkeeping -/

theorem sweepLoop_max_ttl {ttl now : Int} (l : List Nat) (c : Cache K V) :
    (sweepLoop ttl now c l).max = c.max ∧ (sweepLoop ttl now c l).ttl = c.ttl := by
  induction l generalizing c with
  | nil => exact ⟨rfl, rfl⟩
  | cons i rest ih =>
    unfold sweepLoop
    split
    · exact ⟨rfl, rfl⟩
    · split
      · exact ih _
      · exact ⟨rfl, rfl⟩

theorem applyOp_max (c : Cache K V) (op : Op K V) :
    (applyOp c op).max = c.max ∧ (applyOp c op).ttl = c.ttl := by
  cases op with
  | get k now =>
    show (get c k now).2.max = _ ∧ (get c k now).2.ttl = _
    unfold get
    repeat' split
    all_goals exact ⟨rfl, rfl⟩
  | set k v now =>
    show (set c k v now).max = c.max ∧ (set c k v now).ttl = c.ttl
    cases hl : lookupId k c.index with
    | some i =>
      cases hag : aget c i with
      | some nd =>
        rw [set_of_live v now hl hag]
        exact ⟨rfl, rfl⟩
      | none =>
        rw [set_of_dead v now hl hag]
        exact ⟨rfl, rfl⟩
    | none =>
      rw [set_of_absent v now hl]
      split
      · unfold evictLRU
        repeat' split
        all_goals exact ⟨rfl, rfl⟩
      · exact ⟨rfl, rfl⟩
  | remove k =>
    show (remove c k).max = _ ∧ (remove c k).ttl = _
    unfold remove
    repeat' split
    all_goals exact ⟨rfl, rfl⟩
  | has k now =>
    show (has c k now).2.max = _ ∧ (has c k now).2.ttl = _
    unfold has
    repeat' split
    all_goals exact ⟨rfl, rfl⟩
  | sweepExpired now =>
    show (sweepExpired c now).max = _ ∧ (sweepExpired c now).ttl = _
    unfold sweepExpired
    split
    · exact ⟨rfl, rfl⟩
    · exact sweepLoop_max_ttl _ _
  | clear => exact ⟨rfl, rfl⟩

theorem get_size_le (c : Cache K V) (k : K) (now : Int) :
    (get c k now).2.size ≤ c.size := by
  unfold get
  repeat' split
  · exact le_refl _
  · exact le_refl _
  · show c.size - 1 ≤ c.size
    omega
  · exact le_refl _

theorem remove_size_le (c : Cache K V) (k : K) : (remove c k).size ≤ c.size := by
  unfold remove
  repeat' split
  · exact le_refl _
  · show c.size - 1 ≤ c.size
    omega
  · exact le_refl _

theorem has_size_le (c : Cache K V) (k : K) (now : Int) :
    (has c k now).2.size ≤ c.size := by
  unfold has
  repeat' split
  · exact le_refl _
  · exact le_refl _
  · show c.size - 1 ≤ c.size
    omega
  · exact le_refl _

theorem sweepLoop_size_le {ttl now : Int} (l : List Nat) (c : Cache K V) :
    (sweepLoop ttl now c l).size ≤ c.size := by
  induction l generalizing c with
  | nil => exact le_refl _
  | cons i rest ih =>
    unfold sweepLoop
    split
    · exact le_refl _
    · split
      · refine le_trans (ih _) ?_
        show c.size - 1 ≤ c.size
        omega
      · exact le_refl _

theorem sweepExpired_size_le (c : Cache K V) (now : Int) :
    (sweepExpired c now).size ≤ c.size := by
  unfold sweepExpired
  split
  · exact le_refl _
  · exact sweepLoop_size_le _ _

theorem size_evictLRU {c : Cache K V} (hwf : Wf c) (hne : c.order ≠ []) :
    (evictLRU c).size = c.size - 1 := by
  cases hlast : c.order.getLast? with
  | none => exact absurd (List.getLast?_eq_none_iff.mp hlast) hne
  | some t =>
    have ht : t ∈ c.order := List.mem_of_mem_getLast? hlast
    obtain ⟨nd, hnd, hmem⟩ := hwf.live ht
    rw [evictLRU_eq hlast (aget_of_arena hnd)]
    rfl

theorem set_size_le {c : Cache K V} (hwf : Wf c) (hs : c.size ≤ c.max)
    (k : K) (v : V) (now : Int) : (set c k v now).size ≤ c.max := by
  cases hl : lookupId k c.index with
  | some i =>
    obtain ⟨nd, hag, hkey⟩ := hwf.aget_of_lookup hl
    rw [set_of_live v now hl hag]
    exact hs
  | none =>
    rw [set_of_absent v now hl]
    have hins := wf_insertNew hwf v now hl
    have hsz : (insertNew c k v now).size = c.size + 1 := rfl
    split
    next hlt =>
      have hne : (insertNew c k v now).order ≠ [] := by
        obtain ⟨i, -, hord, -⟩ := insertNew_spec hwf k v now
        rw [hord]
        exact List.cons_ne_nil _ _
      rw [size_evictLRU hins hne, hsz]
      omega
    next hge =>
      rw [hsz]
      rw [hsz] at hge
      omega

theorem run_size_le (ops : List (Op K V)) :
    ∀ c : Cache K V, Wf c → 0 ≤ c.max → c.size ≤ c.max →
      (run c ops).size ≤ c.max := by
  induction ops with
  | nil =>
    intro c _ _ hs
    exact hs
  | cons op rest ih =>
    intro c hwf h0 hs
    have hmax := (applyOp_max c op).1
    have hstep : (applyOp c op).size ≤ c.max := by
      cases op with
      | get k now => exact le_trans (get_size_le c k now) hs
      | set k v now => exact set_size_le hwf hs k v now
      | remove k => exact le_trans (remove_size_le c k) hs
      | has k now => exact le_trans (has_size_le c k now) hs
      | sweepExpired now => exact le_trans (sweepExpired_size_le c now) hs
      | clear =>
        show (0 : Int) ≤ c.max
        exact h0
    have hrec := ih (applyOp c op) (wf_applyOp hwf op)
      (by rw [hmax]; exact h0) (by rw [hmax]; exact hstep)
    rw [hmax] at hrec
    exact hrec

/-! ### Behaviour of `set` and `get` on present and absent keys -/

theorem get_of_dead {c : Cache K V} {k : K} {i : Nat} (now : Int)
    (hl : lookupId k c.index = some i) (hag : aget c i = none) :
    get c k now = (none, { c with misses := c.misses + 1 }) := by
  unfold get
  rw [hl]
  show (match aget c i with
    | none => _
    | some nd => _) = _
  rw [hag]

theorem has_of_dead {c : Cache K V} {k : K} {i : Nat} (now : Int)
    (hl : lookupId k c.index = some i) (hag : aget c i = none) :
    has c k now = (false, c) := by
  unfold has
  rw [hl]
  show (match aget c i with
    | none => _
    | some nd => _) = _
  rw [hag]

theorem set_live_spec {c : Cache K V} (hwf : Wf c) {k : K} {i : Nat}
    {nd : NodeData K V} (v : V) (now : Int)
    (hl : lookupId k c.index = some i) (hag : aget c i = some nd) :
    (set c k v now).order.head? = some i ∧
    aget (set c k v now) i = some ⟨k, v, now⟩ ∧
    (set c k v now).index = c.index ∧
    (set c k v now).size = c.size ∧
    (set c k v now).hits = c.hits ∧
    (set c k v now).misses = c.misses := by
  obtain ⟨hkey, hmem'⟩ := hwf.key_of_lookup hl hag
  have hi : i ∈ c.order :=
    hwf.ids_perm.mem_iff.mp (by simpa using List.mem_map_of_mem Prod.snd hmem')
  have hilen : i < c.arena.length := hwf.order_lt i hi
  rw [set_of_live v now hl hag]
  refine ⟨moveToFront_head _ _, ?_, rfl, rfl, rfl, rfl⟩
  apply aget_of_arena
  show (c.arena.set i (some { nd with value := v, createdAt := now }))[i]? = _
  rw [List.getElem?_set_self hilen]
  have heq : ({ nd with value := v, createdAt := now } : NodeData K V)
      = ⟨k, v, now⟩ := by
    cases nd
    exact congrArg (fun x => (⟨x, v, now⟩ : NodeData K V)) hkey
  rw [heq]

theorem get_hit_spec {c : Cache K V} (hwf : Wf c) {k : K} {i : Nat}
    {nd : NodeData K V} (now : Int)
    (hl : lookupId k c.index = some i) (hag : aget c i = some nd)
    (hfresh : ¬(0 < c.ttl ∧ c.ttl < now - nd.createdAt)) :
    (get c k now).1 = some nd.value ∧
    (get c k now).2.arena = c.arena ∧
    (get c k now).2.index = c.index ∧
    (get c k now).2.order.head? = some i ∧
    (get c k now).2.hits = c.hits + 1 ∧
    (get c k now).2.misses = c.misses ∧
    (get c k now).2.size = c.size ∧
    (get c k now).2.ttl = c.ttl := by
  rw [get_of_live now hl hag, if_neg hfresh]
  exact ⟨rfl, rfl, rfl, moveToFront_head _ _, rfl, rfl, rfl, rfl⟩

/-- Complete characterization of `set` on an absent key for a cache with
positive capacity: a fresh node carrying the written entry lands at the
head; when the capacity was not yet reached nothing is evicted, and when it
was, exactly the tail entry is evicted. -/
theorem set_absent_spec {c : Cache K V} (hwf : Wf c) (hmax : 1 ≤ c.max)
    {k : K} (v : V) (now : Int) (hl : lookupId k c.index = none) :
    ∃ i, i ∉ c.order ∧
      lookupId k (set c k v now).index = some i ∧
      aget (set c k v now) i = some ⟨k, v, now⟩ ∧
      (set c k v now).order.head? = some i ∧
      (set c k v now).hits = c.hits ∧
      (set c k v now).misses = c.misses ∧
      (¬c.max < c.size + 1 →
        (set c k v now).order = i :: c.order ∧
        (set c k v now).size = c.size + 1 ∧
        ∀ k', k' ≠ k → lookupId k' (set c k v now).index = lookupId k' c.index) ∧
      (c.max < c.size + 1 →
        ∃ t ndt, c.order.getLast? = some t ∧ aget c t = some ndt ∧ t ≠ i ∧
          ndt.key ≠ k ∧
          (set c k v now).order = i :: c.order.dropLast ∧
          (set c k v now).size = c.size ∧
          lookupId ndt.key (set c k v now).index = none ∧
          ∀ k', k' ≠ k → k' ≠ ndt.key →
            lookupId k' (set c k v now).index = lookupId k' c.index) := by
  obtain ⟨i, hfresh, hordI, hidxI, hszI, hagI, hagold⟩ := insertNew_spec hwf k v now
  have hins := wf_insertNew hwf v now hl
  rw [set_of_absent v now hl, hszI]
  by_cases hcap : c.max < c.size + 1
  · rw [if_pos hcap]
    have hONE : c.order ≠ [] := by
      intro h
      have hsz := hwf.size_eq
      rw [h] at hsz
      simp only [List.length_nil, Nat.cast_zero] at hsz
      omega
    cases hlastO : c.order.getLast? with
    | none => exact absurd (List.getLast?_eq_none_iff.mp hlastO) hONE
    | some t =>
    have ht : t ∈ c.order := List.mem_of_mem_getLast? hlastO
    have hti : t ≠ i := fun h => hfresh (h ▸ ht)
    obtain ⟨ndt0, hndt0, hmemt⟩ := hwf.live ht
    have hagt : aget c t = some ndt0 := aget_of_arena hndt0
    have hkt : ndt0.key ≠ k := (lookupId_eq_none_iff.mp hl) _ hmemt
    have hlastI : (insertNew c k v now).order.getLast? = some t := by
      rw [hordI, getLast?_cons_of_ne_nil _ hONE, hlastO]
    have hagtI : aget (insertNew c k v now) t = some ndt0 := by
      rw [hagold t ht, hagt]
    rw [evictLRU_eq hlastI hagtI]
    have hordR : (removeInternal (insertNew c k v now) t ndt0).order
        = i :: c.order.dropLast := by
      show ((insertNew c k v now).order).erase t = _
      rw [hordI, List.erase_cons_tail (by simp [Ne.symm hti]),
        erase_getLast? hwf.order_nodup hlastO]
    have hidxR : (removeInternal (insertNew c k v now) t ndt0).index
        = deleteKey ndt0.key (c.index ++ [(k, i)]) := by
      show deleteKey ndt0.key ((insertNew c k v now).index) = _
      rw [hidxI]
    have hkeysI : ((c.index ++ [(k, i)]).map Prod.fst).Nodup := by
      have h2 := hins.keys_nodup
      rw [hidxI] at h2
      exact h2
    refine ⟨i, hfresh, ?_, ?_, ?_, rfl, rfl, ?_, ?_⟩
    · rw [hidxR, lookupId_deleteKey_ne (fun h => hkt h.symm)]
      exact lookupId_concat_self hl
    · have harI : (removeInternal (insertNew c k v now) t ndt0).arena[i]?
          = (insertNew c k v now).arena[i]? := by
        show ((insertNew c k v now).arena.set t none)[i]? = _
        rw [List.getElem?_set_ne hti]
      rw [aget_congr harI]
      exact hagI
    · rw [hordR]
      rfl
    · intro hc
      exact absurd hcap hc
    · intro _
      refine ⟨t, ndt0, rfl, hagt, hti, hkt, hordR, ?_, ?_, ?_⟩
      · show (insertNew c k v now).size - 1 = c.size
        rw [hszI]
        omega
      · rw [hidxR]
        exact lookupId_deleteKey_self hkeysI
      · intro k' hk'k hk'kt
        rw [hidxR, lookupId_deleteKey_ne hk'kt, lookupId_concat_ne hk'k]
  · rw [if_neg hcap]
    refine ⟨i, hfresh, ?_, hagI, ?_, rfl, rfl, ?_, ?_⟩
    · rw [hidxI]
      exact lookupId_concat_self hl
    · rw [hordI]
      rfl
    · intro _
      exact ⟨hordI, hszI, fun k' hk' => by rw [hidxI, lookupId_concat_ne hk']⟩
    · intro hc
      exact absurd hc hcap

/-- A `set` always leaves the written key at the head of the recency list
(the most-recently-used position), in a cache of positive capacity. -/
theorem headKey_set {c : Cache K V} (hwf : Wf c) (hmax : 1 ≤ c.max)
    (k : K) (v : V) (now : Int) : headKey (set c k v now) = some k := by
  cases hl : lookupId k c.index with
  | some i =>
    obtain ⟨nd, hag, -⟩ := hwf.aget_of_lookup hl
    obtain ⟨hhead, hagi, -⟩ := set_live_spec hwf v now hl hag
    unfold headKey
    rw [hhead]
    simp [hagi]
  | none =>
    obtain ⟨i, -, -, hagi, hhead, -⟩ := set_absent_spec hwf hmax v now hl
    unfold headKey
    rw [hhead]
    simp [hagi]

/-- A hitting `get` leaves the read key at the head of the recency list. -/
theorem headKey_get_hit {c : Cache K V} (hwf : Wf c) {k : K} {now : Int}
    {v : V} (h : (get c k now).1 = some v) :
    headKey (get c k now).2 = some k := by
  cases hl : lookupId k c.index with
  | none =>
    rw [get_of_absent now hl] at h
    simp at h
  | some i =>
    cases hag : aget c i with
    | none =>
      rw [get_of_dead now hl hag] at h
      simp at h
    | some nd =>
      by_cases hexp : 0 < c.ttl ∧ c.ttl < now - nd.createdAt
      · rw [get_of_live now hl hag, if_pos hexp] at h
        simp at h
      · obtain ⟨hval, harena, hidx, hhead, -⟩ := get_hit_spec hwf now hl hag hexp
        have hkey := (hwf.key_of_lookup hl hag).1
        unfold headKey
        rw [hhead]
        have hagc : aget (get c k now).2 i = aget c i := aget_congr (by rw [harena])
        simp [hagc, hag, hkey]

/-! ### Characterization of the expiry sweep -/

theorem dropWhile_congr {p q : Nat → Bool} :
    ∀ {l : List Nat}, (∀ x ∈ l, p x = q x) → l.dropWhile p = l.dropWhile q := by
  intro l
  induction l with
  | nil => intro _; rfl
  | cons x xs ih =>
    intro h
    have hx := h x (List.mem_cons_self x xs)
    rw [List.dropWhile_cons, List.dropWhile_cons, hx]
    split
    · exact ih (fun y hy => h y (List.mem_cons_of_mem x hy))
    · rfl

theorem head_dropWhile_false {p : Nat → Bool} (l : List Nat) :
    ∀ {x xs}, l.dropWhile p = x :: xs → p x = false := by
  induction l with
  | nil =>
    intro x xs h
    simp [List.dropWhile] at h
  | cons y ys ih =>
    intro x xs h
    rw [List.dropWhile_cons] at h
    split at h
    · exact ih h
    · next hn =>
      injection h with h1 h2
      subst h1
      simpa using hn

theorem expiredB_congr {c c' : Cache K V} {j : Nat} (now : Int)
    (httl : c'.ttl = c.ttl) (hag : aget c' j = aget c j) :
    expiredB c' now j = expiredB c now j := by
  unfold expiredB
  rw [httl, hag]

/-- The sweep loop walks the postfix `l` of the reversed recency list and
drops exactly its maximal all-expired prefix (the ids nearest the tail),
leaving the rest of the list untouched. -/
theorem sweepLoop_order (now : Int) :
    ∀ (l front : List Nat) (c : Cache K V),
      c.order = front ++ l.reverse → c.order.Nodup →
      (sweepLoop c.ttl now c l).order
        = front ++ (l.dropWhile (expiredB c now)).reverse := by
  intro l
  induction l with
  | nil =>
    intro front c hord _
    simpa [sweepLoop] using hord
  | cons i rest ih =>
    intro front c hord hnd
    have hordX : c.order = (front ++ rest.reverse) ++ [i] := by
      rw [hord, List.reverse_cons, List.append_assoc]
    have hiX : i ∉ front ++ rest.reverse := by
      intro hmem
      have h2 := hordX ▸ hnd
      rw [List.nodup_append] at h2
      exact h2.2.2 hmem (List.mem_singleton_self _)
    unfold sweepLoop
    cases hag : aget c i with
    | none =>
      have hE : expiredB c now i = false := by
        unfold expiredB
        rw [hag]
      have hdrop : List.dropWhile (expiredB c now) (i :: rest) = i :: rest := by
        rw [List.dropWhile_cons, hE]
        simp
      show c.order = front ++ (List.dropWhile (expiredB c now) (i :: rest)).reverse
      rw [hdrop]
      exact hord
    | some nd =>
      show (if c.ttl < now - nd.createdAt then
          sweepLoop c.ttl now (removeInternal c i nd) rest else c).order
        = front ++ (List.dropWhile (expiredB c now) (i :: rest)).reverse
      by_cases hexp : c.ttl < now - nd.createdAt
      · rw [if_pos hexp]
        have hE : expiredB c now i = true := by
          unfold expiredB
          rw [hag]
          exact decide_eq_true hexp
        have hdrop : List.dropWhile (expiredB c now) (i :: rest)
            = List.dropWhile (expiredB c now) rest := by
          rw [List.dropWhile_cons, hE]
          simp
        have hordR : (removeInternal c i nd).order = front ++ rest.reverse := by
          show c.order.erase i = _
          rw [hordX, List.erase_append_right _ hiX, List.erase_cons_head,
            List.append_nil]
        have hndR : (removeInternal c i nd).order.Nodup := hnd.erase i
        have hcongr : ∀ j ∈ rest,
            expiredB (removeInternal c i nd) now j = expiredB c now j := by
          intro j hj
          have hji : j ≠ i := by
            intro h
            subst h
            exact hiX (List.mem_append.mpr (Or.inr (List.mem_reverse.mpr hj)))
          refine expiredB_congr now rfl (aget_congr ?_)
          show (c.arena.set i none)[j]? = c.arena[j]?
          rw [List.getElem?_set_ne (fun h => hji h.symm)]
        have hrec := ih front (removeInternal c i nd) hordR hndR
        rw [hdrop, ← @dropWhile_congr (expiredB (removeInternal c i nd) now)
          (expiredB c now) rest hcongr]
        exact hrec
      · rw [if_neg hexp]
        have hE : expiredB c now i = false := by
          unfold expiredB
          rw [hag]
          exact decide_eq_false hexp
        have hdrop : List.dropWhile (expiredB c now) (i :: rest) = i :: rest := by
          rw [List.dropWhile_cons, hE]
          simp
        rw [hdrop]
        exact hord

/-- Theorem: `sweepExpired` removes exactly the maximal expired suffix of the
recency list. -/
theorem sweepExpired_order {c : Cache K V} (hwf : Wf c) (httl : 0 < c.ttl)
    (now : Int) :
    (sweepExpired c now).order
      = (c.order.reverse.dropWhile (expiredB c now)).reverse := by
  unfold sweepExpired
  rw [if_neg (by omega : ¬c.ttl ≤ 0)]
  have h := sweepLoop_order now c.order.reverse [] c (by simp) hwf.order_nodup
  simpa using h

/-- Per-branch bookkeeping: `set` never changes the hit or miss counters. -/
theorem set_counters (c : Cache K V) (k : K) (v : V) (now : Int) :
    (set c k v now).hits = c.hits ∧ (set c k v now).misses = c.misses := by
  cases hl : lookupId k c.index with
  | some i =>
    cases hag : aget c i with
    | some nd =>
      rw [set_of_live v now hl hag]
      exact ⟨rfl, rfl⟩
    | none =>
      rw [set_of_dead v now hl hag]
      exact ⟨rfl, rfl⟩
  | none =>
    rw [set_of_absent v now hl]
    split
    · unfold evictLRU
      repeat' split
      all_goals exact ⟨rfl, rfl⟩
    · exact ⟨rfl, rfl⟩

/-- After a `set`, the written key is indexed and its node carries exactly
the written key, value and timestamp. -/
theorem set_lookup_self {c : Cache K V} (hwf : Wf c) (hmax : 1 ≤ c.max)
    (k : K) (v : V) (now : Int) :
    ∃ i, lookupId k (set c k v now).index = some i ∧
      aget (set c k v now) i = some ⟨k, v, now⟩ := by
  cases hl : lookupId k c.index with
  | some i =>
    obtain ⟨nd, hag, -⟩ := hwf.aget_of_lookup hl
    obtain ⟨-, hagi, hidx, -⟩ := set_live_spec hwf v now hl hag
    exact ⟨i, by rw [hidx]; exact hl, hagi⟩
  | none =>
    obtain ⟨i, -, hlk, hagi, -⟩ := set_absent_spec hwf hmax v now hl
    exact ⟨i, hlk, hagi⟩

theorem run_append (c : Cache K V) (l₁ l₂ : List (Op K V)) :
    run c (l₁ ++ l₂) = run (run c l₁) l₂ := by
  simp [run, List.foldl_append]

theorem run_max (c : Cache K V) (ops : List (Op K V)) :
    (run c ops).max = c.max ∧ (run c ops).ttl = c.ttl := by
  induction ops generalizing c with
  | nil => exact ⟨rfl, rfl⟩
  | cons op rest ih =>
    have h1 := applyOp_max c op
    have h2 := ih (applyOp c op)
    exact ⟨h2.1.trans h1.1, h2.2.trans h1.2⟩

/-- Run a sequence of `set` calls (key, value, timestamp). -/
def runSets (c : Cache K V) (l : List (K × V × Int)) : Cache K V :=
  run c (l.map fun s => Op.set s.1 s.2.1 s.2.2)

/-! ### The claims -/

/-- C5 (counterexample): the claim says constructing with a non-positive
`max` fails and produces no instance; but the source constructor performs
no validation, so construction with `max = 0` succeeds and returns a
cache. -/
theorem C5_counterexample :
    (construct 0 0 : Option (Cache Nat Nat)) = some (mkCache 0 0) := rfl

/-- C5 (amended): construction never fails: for every integer capacity
`max` — including zero and negative values — and every `ttl`, the
constructor returns a cache instance and surfaces no error to the
caller. -/
theorem C5_construct_total (max ttl : Int) :
    (construct max ttl : Option (Cache K V)) = some (mkCache max ttl) := rfl

/-- C6: `hitRate` equals `h/(h+m)` after `h` hits and `m` misses, and is
`0` when no lookup has been counted — the source guards `total === 0`
explicitly, so a fresh or cleared cache reports `0` instead of dividing
by zero. -/
theorem C6_hitRate {c : Cache K V} {h m : Int} (hh : c.hits = h)
    (hm : c.misses = m) :
    (h + m ≠ 0 → hitRate c = (h : Rat) / ((h : Rat) + (m : Rat))) ∧
    (h = 0 ∧ m = 0 → hitRate c = 0) ∧
    hitRate (clear c) = 0 ∧
    hitRate (mkCache c.max c.ttl : Cache K V) = 0 := by
  subst hh
  subst hm
  refine ⟨?_, ?_, ?_, ?_⟩
  · intro hne
    unfold hitRate
    rw [if_neg hne]
  · rintro ⟨h0, m0⟩
    unfold hitRate
    rw [if_pos (by rw [h0, m0]; ring)]
  · unfold hitRate clear
    simp
  · unfold hitRate mkCache
    simp

/-- C6 (witness): after one recorded miss, `hitRate` is `0/(0+1)`. -/
theorem C6_witness :
    hitRate ((get (mkCache 1 0 : Cache Nat Nat) 0 0).2)
      = ((0 : Int) : Rat) / (((0 : Int) : Rat) + ((1 : Int) : Rat)) :=
  (C6_hitRate rfl rfl).1 (by decide)

/-- C7: `has` answers exactly what `get` would answer (present and
non-expired), never changes `hits` or `misses`, and never changes the
recency order: the state is either unchanged, or — exactly when the key's
node is TTL-expired — that node alone is removed. -/
theorem C7_has_frame (c : Cache K V) (k : K) (now : Int) :
    (has c k now).1 = ((get c k now).1).isSome ∧
    (has c k now).2.hits = c.hits ∧
    (has c k now).2.misses = c.misses ∧
    ((has c k now).2 = c ∨
      ∃ i nd, lookupId k c.index = some i ∧ aget c i = some nd ∧
        0 < c.ttl ∧ c.ttl < now - nd.createdAt ∧
        (has c k now).2 = removeInternal c i nd) := by
  cases hl : lookupId k c.index with
  | none =>
    rw [has_of_absent now hl, get_of_absent now hl]
    exact ⟨rfl, rfl, rfl, Or.inl rfl⟩
  | some i =>
    cases hag : aget c i with
    | none =>
      rw [has_of_dead now hl hag, get_of_dead now hl hag]
      exact ⟨rfl, rfl, rfl, Or.inl rfl⟩
    | some nd =>
      by_cases hexp : 0 < c.ttl ∧ c.ttl < now - nd.createdAt
      · rw [has_of_live now hl hag, get_of_live now hl hag, if_pos hexp,
          if_pos hexp]
        exact ⟨rfl, rfl, rfl, Or.inr ⟨i, nd, rfl, hag, hexp.1, hexp.2, rfl⟩⟩
      · rw [has_of_live now hl hag, get_of_live now hl hag, if_neg hexp,
          if_neg hexp]
        exact ⟨rfl, rfl, rfl, Or.inl rfl⟩

/-- C8: removing an absent key is a no-op: the state is returned
unchanged — in particular `size`, `hits` and `misses` keep their values —
and no error path exists. -/
theorem C8_remove_absent_noop {c : Cache K V} {k : K}
    (habs : lookupId k c.index = none) :
    remove c k = c ∧ (remove c k).size = c.size ∧
    (remove c k).hits = c.hits ∧ (remove c k).misses = c.misses := by
  have h := remove_of_absent habs
  exact ⟨h, by rw [h], by rw [h], by rw [h]⟩

/-- C8 (witness): removing key 5 from a fresh cache returns it unchanged. -/
theorem C8_witness :
    remove (mkCache 2 0 : Cache Nat Nat) 5 = mkCache 2 0 := by
  have habs : lookupId 5 (mkCache 2 0 : Cache Nat Nat).index = none := rfl
  exact (C8_remove_absent_noop habs).1

/-- C3 (counterexample): the claim's consequence — "after `sweepExpired`
no resident entry is expired" — fails: with capacity 2 and ttl 7, after
`set 0 @t0`, `set 1 @t5` and a hit `get 0 @t6` (which promotes key 0
without refreshing its `createdAt = 0`), the sweep at t10 stops at the
non-expired tail (key 1, age 5) and leaves key 0 resident with age
10 > 7. -/
theorem C3_counterexample :
    hasExpiredResident
      (sweepExpired ((get (set (set (mkCache 2 7 : Cache Nat Nat) 0 100 0)
        1 101 5) 0 6).2) 10) 10 = true := by
  decide

/-- C3 (amended): when TTL is enabled, `sweepExpired` scans from the tail
toward the head, removes exactly the maximal all-expired suffix of the
list, and stops at the first non-expired node; consequently the tail of
the remaining list (if any) is not expired — but entries nearer the head
may remain resident while expired, because a `get` hit promotes a node
without refreshing `createdAt`. -/
theorem C3_sweep_amended {c : Cache K V} (hwf : Wf c) (httl : 0 < c.ttl)
    (now : Int) :
    (sweepExpired c now).order
      = (c.order.reverse.dropWhile (expiredB c now)).reverse ∧
    c.order = (sweepExpired c now).order
      ++ (c.order.reverse.takeWhile (expiredB c now)).reverse ∧
    (∀ i ∈ c.order.reverse.takeWhile (expiredB c now), expiredB c now i = true) ∧
    (∀ i, (sweepExpired c now).order.getLast? = some i →
      expiredB c now i = false) := by
  have hord := sweepExpired_order hwf httl now
  refine ⟨hord, ?_, ?_, ?_⟩
  · rw [hord, ← List.reverse_append, List.takeWhile_append_dropWhile,
      List.reverse_reverse]
  · intro i hi
    exact List.mem_takeWhile_imp hi
  · intro i hlast
    rw [hord, List.getLast?_reverse] at hlast
    cases hD : c.order.reverse.dropWhile (expiredB c now) with
    | nil =>
      rw [hD] at hlast
      simp at hlast
    | cons x xs =>
      rw [hD] at hlast
      simp only [List.head?_cons, Option.some.injEq] at hlast
      rw [← hlast]
      exact head_dropWhile_false _ hD

/-- C3 (witness): the amended sweep characterization evaluated on a
concrete reachable state. -/
theorem C3_witness :
    (sweepExpired ((get (set (set (mkCache 2 7 : Cache Nat Nat) 0 100 0)
        1 101 5) 0 6).2) 10).order
      = (((get (set (set (mkCache 2 7 : Cache Nat Nat) 0 100 0)
        1 101 5) 0 6).2).order.reverse.dropWhile
          (expiredB ((get (set (set (mkCache 2 7 : Cache Nat Nat) 0 100 0)
            1 101 5) 0 6).2) 10)).reverse :=
  (C3_sweep_amended
    (wf_get (wf_set (wf_set (wf_mkCache 2 7) 0 100 0) 1 101 5) 0 6)
    (by decide) 10).1

/-- C9: a successful (non-expired) `get` promotes the entry to the head
but leaves the arena untouched: the node's value and `createdAt` are
unchanged, so the entry's expiry deadline stays at its last write time
plus the TTL — a later `get` past that deadline reports it absent, no
matter how often it was read. -/
theorem C9_get_preserves_createdAt {c : Cache K V} (hwf : Wf c) {k : K}
    {i : Nat} {nd : NodeData K V} (now : Int)
    (hl : lookupId k c.index = some i) (hag : aget c i = some nd)
    (hfresh : ¬(0 < c.ttl ∧ c.ttl < now - nd.createdAt)) :
    (get c k now).1 = some nd.value ∧
    (get c k now).2.arena = c.arena ∧
    lookupId k (get c k now).2.index = some i ∧
    aget (get c k now).2 i = some nd ∧
    headKey (get c k now).2 = some k ∧
    (∀ t2, 0 < c.ttl → c.ttl < t2 - nd.createdAt →
      (get (get c k now).2 k t2).1 = none) := by
  obtain ⟨hval, harena, hidx, hhead, hh, hm, hsz, httl⟩ :=
    get_hit_spec hwf now hl hag hfresh
  have hagc : aget (get c k now).2 i = aget c i := aget_congr (by rw [harena])
  refine ⟨hval, harena, by rw [hidx]; exact hl, by rw [hagc]; exact hag,
    headKey_get_hit hwf hval, ?_⟩
  intro t2 h1 h2
  rw [get_of_live t2 (by rw [hidx]; exact hl) (by rw [hagc]; exact hag),
    if_pos ⟨by rw [httl]; exact h1, by rw [httl]; exact h2⟩]

/-- C9 (witness): key 3 written at t0; a hit at t4 returns the value, and
a further read at t20 (past the 10 ms TTL counted from the write, not
from the previous read) reports it absent. -/
theorem C9_witness :
    (get (set (mkCache 2 10 : Cache Nat Nat) 3 30 0) 3 4).1 = some 30 ∧
    (get (get (set (mkCache 2 10 : Cache Nat Nat) 3 30 0) 3 4).2 3 20).1
      = none := by
  have hl : lookupId 3 (set (mkCache 2 10 : Cache Nat Nat) 3 30 0).index
      = some 0 := rfl
  have hag : aget (set (mkCache 2 10 : Cache Nat Nat) 3 30 0) 0
      = some ⟨3, 30, 0⟩ := rfl
  have h := C9_get_preserves_createdAt
    (wf_set (wf_mkCache 2 10) 3 30 0) 4 hl hag (by decide)
  exact ⟨h.1, h.2.2.2.2.2 20 (by decide) (by decide)⟩

/-- C10: a `set` immediately followed by a `get` of the same key at the
same timestamp returns the just-written value: the new node sits at the
head while any eviction removed the tail, and the expiry check cannot
fire because the entry's age is `now - now = 0`. -/
theorem C10_set_then_get {c : Cache K V} (hwf : Wf c) (hmax : 1 ≤ c.max)
    (k : K) (v : V) (now : Int) :
    (get (set c k v now) k now).1 = some v := by
  obtain ⟨i, hlk, hagi⟩ := set_lookup_self hwf hmax k v now
  have hneg : ¬(0 < (set c k v now).ttl ∧
      (set c k v now).ttl < now - (⟨k, v, now⟩ : NodeData K V).createdAt) := by
    rintro ⟨h1, h2⟩
    have h2' : (set c k v now).ttl < 0 := by simpa using h2
    omega
  rw [get_of_live now hlk hagi, if_neg hneg]

/-- C10 (witness): set key 7 to 99 at t5 in a capacity-1 cache, then get
it at t5. -/
theorem C10_witness :
    (get (set (mkCache 1 0 : Cache Nat Nat) 7 99 5) 7 5).1 = some 99 :=
  C10_set_then_get (wf_mkCache 1 0) (by decide) 7 99 5

/-- C2: with TTL `T > 0` and positive capacity, after `set k v` at `t0`, a
following `get k` at `t1` returns the stored value when `t1 - t0 ≤ T` and
reports the key absent when `t1 - t0 > T`; in the expired case the node is
removed from the index and the recency list, released to the pool, and
`misses` is incremented. -/
theorem C2_ttl {c : Cache K V} (hwf : Wf c) (hmax : 1 ≤ c.max)
    {T : Int} (httl : c.ttl = T) (hT : 0 < T) (k : K) (v : V) (t0 t1 : Int) :
    (t1 - t0 ≤ T → (get (set c k v t0) k t1).1 = some v) ∧
    (T < t1 - t0 →
      (get (set c k v t0) k t1).1 = none ∧
      lookupId k (get (set c k v t0) k t1).2.index = none ∧
      (∀ i, lookupId k (set c k v t0).index = some i →
        i ∉ (get (set c k v t0) k t1).2.order ∧
        i ∈ (get (set c k v t0) k t1).2.pool) ∧
      (get (set c k v t0) k t1).2.misses = c.misses + 1) := by
  obtain ⟨i, hlk, hagi⟩ := set_lookup_self hwf hmax k v t0
  have hwf1 := wf_set hwf k v t0
  have httl1 : (set c k v t0).ttl = T :=
    ((applyOp_max c (Op.set k v t0)).2).trans httl
  constructor
  · intro hle
    have hneg : ¬(0 < (set c k v t0).ttl ∧
        (set c k v t0).ttl < t1 - (⟨k, v, t0⟩ : NodeData K V).createdAt) := by
      rintro ⟨h1, h2⟩
      have h2' : (set c k v t0).ttl < t1 - t0 := by simpa using h2
      rw [httl1] at h2'
      omega
    rw [get_of_live t1 hlk hagi, if_neg hneg]
  · intro hgt
    have hpos : 0 < (set c k v t0).ttl ∧
        (set c k v t0).ttl < t1 - (⟨k, v, t0⟩ : NodeData K V).createdAt := by
      constructor
      · rw [httl1]
        exact hT
      · show (set c k v t0).ttl < t1 - t0
        rw [httl1]
        omega
    rw [get_of_live t1 hlk hagi, if_pos hpos]
    refine ⟨rfl, ?_, ?_, ?_⟩
    · show lookupId k (deleteKey (⟨k, v, t0⟩ : NodeData K V).key _) = none
      exact lookupId_deleteKey_self hwf1.keys_nodup
    · intro i' hi'
      rw [hlk] at hi'
      injection hi' with hi'
      subst hi'
      constructor
      · show i ∉ (set c k v t0).order.erase i
        intro hmem
        exact ((hwf1.order_nodup.mem_erase_iff).mp hmem).1 rfl
      · exact List.mem_cons_self _ _
    · show (set c k v t0).misses + 1 = c.misses + 1
      rw [(set_counters c k v t0).2]

/-- C2 (witness): ttl 5, write at t0, hit at t3 within the TTL. -/
theorem C2_witness :
    (get (set (mkCache 2 5 : Cache Nat Nat) 1 42 0) 1 3).1 = some 42 :=
  (C2_ttl (wf_mkCache 2 5) (by decide) rfl (by decide) 1 42 0 3).1 (by decide)

/-- C1: for a cache constructed with positive integer capacity and any
sequence of `set` calls with distinct keys, after each call `size ≤ max`;
and from any state of the sequence with `size = max`, a further `set` of
an absent key evicts exactly one entry, namely the current tail
(least-recently-used): the new list is the fresh node followed by the old
list minus its tail, the tail's key is gone from the index, every other
key's entry is untouched, and `size` stays `max`. -/
theorem C1_capacity (max ttl : Int) (hmax : 1 ≤ max)
    (sets : List (K × V × Int)) (hdist : (sets.map Prod.fst).Nodup) :
    (∀ pre suf, pre ++ suf = sets →
      (runSets (mkCache max ttl) pre).size ≤ max) ∧
    (∀ pre suf, pre ++ suf = sets → ∀ (k : K) (v : V) (now : Int),
      (runSets (mkCache max ttl) pre).size = max →
      lookupId k (runSets (mkCache max ttl) pre).index = none →
      (set (runSets (mkCache max ttl) pre) k v now).size = max ∧
      ∃ i t ndt,
        (runSets (mkCache max ttl) pre).order.getLast? = some t ∧
        aget (runSets (mkCache max ttl) pre) t = some ndt ∧
        (set (runSets (mkCache max ttl) pre) k v now).order
          = i :: (runSets (mkCache max ttl) pre).order.dropLast ∧
        lookupId k (set (runSets (mkCache max ttl) pre) k v now).index
          = some i ∧
        lookupId ndt.key
          (set (runSets (mkCache max ttl) pre) k v now).index = none ∧
        ∀ k', k' ≠ k → k' ≠ ndt.key →
          lookupId k' (set (runSets (mkCache max ttl) pre) k v now).index
            = lookupId k' (runSets (mkCache max ttl) pre).index) := by
  constructor
  · intro pre suf hpre
    refine run_size_le _ (mkCache max ttl) (wf_mkCache max ttl) ?_ ?_
    · show (0 : Int) ≤ max
      omega
    · show (0 : Int) ≤ max
      omega
  · intro pre suf hpre k v now hsize habs
    have hwfp : Wf (runSets (mkCache max ttl) pre) :=
      wf_run (wf_mkCache max ttl) _
    have hmaxp : (runSets (mkCache max ttl : Cache K V) pre).max = max :=
      (run_max _ _).1
    obtain ⟨i, hfresh, hlk, hagi, hhead, hhits, hmiss, hno, hev⟩ :=
      set_absent_spec hwfp (by rw [hmaxp]; exact hmax) v now habs
    obtain ⟨t, ndt, hlast, hagt, hti, hkt, hord, hsz, hgone, hothers⟩ :=
      hev (by rw [hmaxp, hsize]; omega)
    refine ⟨by rw [hsz, hsize], i, t, ndt, hlast, hagt, hord, hlk, hgone,
      hothers⟩

/-- C1 (witness): capacity 1, one `set`: the size bound holds after the
whole sequence. -/
theorem C1_witness :
    (runSets (mkCache 1 0 : Cache Nat Nat) [(0, 5, 0)]).size ≤ 1 :=
  (C1_capacity 1 0 (by decide) [(0, 5, 0)] (by decide)).1 [(0, 5, 0)] [] rfl

/-- C4: every operation sequence from a fresh cache preserves the
structural invariant `Wf` — the hash index and the recency list stay
consistent: each indexed node is listed exactly once and each listed node
is indexed under its own key, pooled nodes are detached and cleared, and
`size` counts the listed nodes.  Moreover the head is the
most-recently-used entry: any `set`, and any hitting `get`, leaves its key
at the head (dually, `evictLRU` removes only the tail, see C1). -/
theorem C4_consistency (max ttl : Int) (ops : List (Op K V)) :
    Wf (run (mkCache max ttl) ops) ∧
    (1 ≤ max → ∀ (pre : List (Op K V)) (k : K) (v : V) (now : Int),
      headKey (run (mkCache max ttl) (pre ++ [Op.set k v now])) = some k) ∧
    (∀ (pre : List (Op K V)) (k : K) (now : Int) (v : V),
      (get (run (mkCache max ttl) pre) k now).1 = some v →
      headKey (run (mkCache max ttl) (pre ++ [Op.get k now])) = some k) := by
  refine ⟨wf_run (wf_mkCache max ttl) ops, ?_, ?_⟩
  · intro hmax pre k v now
    rw [run_append]
    show headKey (set (run (mkCache max ttl) pre) k v now) = some k
    have hwfp := wf_run (wf_mkCache max ttl : Wf (mkCache max ttl : Cache K V)) pre
    have hmaxp : (run (mkCache max ttl : Cache K V) pre).max = max :=
      (run_max _ _).1
    exact headKey_set hwfp (by rw [hmaxp]; exact hmax) k v now
  · intro pre k now v hget
    rw [run_append]
    show headKey (get (run (mkCache max ttl) pre) k now).2 = some k
    have hwfp := wf_run (wf_mkCache max ttl : Wf (mkCache max ttl : Cache K V)) pre
    exact headKey_get_hit hwfp hget

/-- C4 (witness): after inserting key 1, it is at the head of the list of
the concrete run. -/
theorem C4_witness :
    headKey (run (mkCache 2 0 : Cache Nat Nat) ([] ++ [Op.set 1 10 0]))
      = some 1 :=
  (C4_consistency 2 0 []).2.1 (by decide) [] 1 10 0

end MiniLRU
